import Mathlib

/-!
Shallow embedding of `lib/util/git.js` (the git utility of the pacote
repository): remote-reference listing parsing (`revs`), the environment
builder (`gitEnv`), spawn-option construction (`mkOpts`), the full-clone
workflow (`fullClone`), and the result cache around `revs`.

Strings are modelled as `List Char`; JavaScript objects used as string-keyed
maps are modelled as association lists with JS property-assignment semantics
(updating an existing key keeps its position, a new key is appended, which is
exactly JS insertion order).
-/

/-- Set of whitespace characters matched by the JavaScript regexp class
backslash-s and removed by String.prototype.trim (WhiteSpace plus
LineTerminator code points). -/
def isWs (c : Char) : Bool :=
  c.val == 9 || c.val == 10 || c.val == 11 || c.val == 12 || c.val == 13 ||
  c.val == 32 || c.val == 160 || c.val == 0x1680 ||
  (decide (0x2000 ≤ c.val) && decide (c.val ≤ 0x200a)) ||
  c.val == 0x2028 || c.val == 0x2029 || c.val == 0x202f ||
  c.val == 0x205f || c.val == 0x3000 || c.val == 0xfeff

/-- Model of JavaScript String.prototype.trim: drop whitespace from both
ends. -/
def jsTrim (l : List Char) : List Char :=
  ((l.dropWhile isWs).reverse.dropWhile isWs).reverse

/-- Split on every single whitespace character (JS split by a single
backslash-s), keeping empty segments.  Splitting the empty string yields one
empty segment, as in JS. -/
def splitOnWs1 : List Char → List (List Char)
  | [] => [[]]
  | c :: t =>
    if isWs c then [] :: splitOnWs1 t
    else
      match splitOnWs1 t with
      | s :: r => (c :: s) :: r
      | [] => [[c]]

/-- Remove empty segments that are not in last position (the caller keeps the
head segment).  Together with `splitOnWs1` this turns a split on single
whitespace characters into a split on maximal whitespace runs: interior empty
segments arise exactly between two consecutive whitespace characters. -/
def dropInnerNilAux : List (List Char) → List (List Char)
  | [] => []
  | [x] => [x]
  | x :: y :: t =>
    if x = [] then dropInnerNilAux (y :: t) else x :: dropInnerNilAux (y :: t)

/-- Model of JavaScript `line.split(/\s+/)`: segments between maximal
whitespace runs, with an empty leading segment when the string starts with
whitespace and an empty trailing segment when it ends with whitespace. -/
def jsSplitWs (l : List Char) : List (List Char) :=
  match splitOnWs1 l with
  | [] => []
  | x :: t => x :: dropInnerNilAux t

/-- Model of `line.split(/\s+/, 2)`: the JS limit argument truncates the
result array to at most two elements. -/
def jsSplitWs2 (l : List Char) : List (List Char) :=
  (jsSplitWs l).take 2

/-- Model of `stdout.split('\n')`. -/
def splitNl : List Char → List (List Char)
  | [] => [[]]
  | c :: t =>
    if c = '\n' then [] :: splitNl t
    else
      match splitNl t with
      | s :: r => (c :: s) :: r
      | [] => [[c]]

/-- The dereference marker appended by git to peeled annotated tags, the
source's `CARET_BRACES` constant (caret, opening brace, closing brace). -/
def caretBraces : List Char := ['^', Char.ofNat 123, Char.ofNat 125]

/-- The five characters of the namespace prefix head, spelled r e f s slash. -/
def refsSlash : List Char := "refs/".data

/-- Model of `split[1].trim().match(/(?:refs\/[^\x2f]+\/)?(.*)/)[1]`: when the
string starts with refs-slash followed by a nonempty slash-free segment and a
slash, strip that leading namespace; otherwise the capture is the whole
string. -/
def stripNs (x : List Char) : List Char :=
  if refsSlash <+: x then
    let rest := x.drop 5
    let seg := rest.takeWhile (fun c => c ≠ '/')
    let rest2 := rest.dropWhile (fun c => c ≠ '/')
    if seg = [] then x
    else
      match rest2 with
      | _ :: tail => tail
      | [] => x
  else x

inductive RefType where
  | tag
  | branch
  | head
  | other
deriving DecidableEq

/-- Model of the source's `refType(ref)`: it is applied to the whole raw
line and classifies by substring search for the tag namespace, then the
branch namespace, then a trailing literal HEAD. -/
def refType (line : List Char) : RefType :=
  if "refs/tags/".data <:+: line then RefType.tag
  else if "refs/heads/".data <:+: line then RefType.branch
  else if "HEAD".data <:+ line then RefType.head
  else RefType.other

/-- Full-string match of the pattern digits dot digits dot digits (each run
nonempty), the capture group of the source's version regex. -/
def isMMP (l : List Char) : Bool :=
  match l.dropWhile Char.isDigit with
  | c :: r2 =>
    if c = '.' then
      match r2.dropWhile Char.isDigit with
      | c2 :: r4 =>
        if c2 = '.' then
          decide (l.takeWhile Char.isDigit ≠ []) &&
          decide (r2.takeWhile Char.isDigit ≠ []) &&
          decide (r4 ≠ []) && r4.all Char.isDigit
        else false
      | [] => false
    else false
  | [] => false

/-- Attempt of the source's regex `v?(\d+\.\d+\.\d+)$` at one start position:
the whole remaining string must be consumed, optionally starting with a
literal v (tried first, as the regex engine does); the returned value is the
capture group. -/
def verAt (l : List Char) : Option (List Char) :=
  match l with
  | [] => none
  | a :: t =>
    if a = 'v' ∧ isMMP t = true then some t
    else if isMMP (a :: t) = true then some (a :: t)
    else none

/-- Model of `ref.match(/v?(\d+\.\d+\.\d+)$/)`: leftmost start position whose
match reaches the end of the string; returns the capture group. -/
def findVer : List Char → Option (List Char)
  | [] => none
  | a :: t =>
    match verAt (a :: t) with
    | some c => some c
    | none => findVer t

/-- JS object property read on a string-keyed map. -/
def objGet {α : Type} (m : List (List Char × α)) (k : List Char) : Option α :=
  match m with
  | [] => none
  | (k', v) :: t => if k' = k then some v else objGet t k

/-- JS object property assignment: an existing key is updated in place
(keeping insertion order), a new key is appended. -/
def objSet {α : Type} (m : List (List Char × α)) (k : List Char) (v : α) :
    List (List Char × α) :=
  match m with
  | [] => [(k, v)]
  | (k', v') :: t => if k' = k then (k, v) :: t else (k', v') :: objSet t k v

/-- One parsed remote reference: the `doc = \x7bsha, ref, type\x7d` object
built per listing line. -/
structure RemoteRef where
  sha : List Char
  ref : List Char
  type : RefType
deriving DecidableEq

/-- Value stored in the dist-tags object.  The source assigns either a
reference doc (`revs.refs.HEAD`) or, in the dead branch, the version key
string `v` itself, so the value domain is their sum. -/
inductive DistVal where
  | ofRef (r : RemoteRef)
  | ofKey (k : List Char)
deriving DecidableEq

/-- Accumulator of the source's reduce: versions, dist-tags, refs and shas
objects. -/
structure RevsDoc where
  versions : List (List Char × RemoteRef)
  distTags : List (List Char × DistVal)
  refs : List (List Char × RemoteRef)
  shas : List (List Char × List (List Char))
deriving DecidableEq

def emptyDoc : RevsDoc := ⟨[], [], [], []⟩

/-- The early-return analysis of one listing line: `none` when the line is
skipped (fewer than two whitespace-separated fields, empty bare name, or bare
name ending in the dereference marker), otherwise the constructed doc. -/
def lineEntry (line : List Char) : Option RemoteRef :=
  match jsSplitWs2 line with
  | [s, r] =>
    let sha := jsTrim s
    let ref := stripNs (jsTrim r)
    if ref = [] then none
    else if caretBraces <:+ ref then none
    else some ⟨sha, ref, refType line⟩
  | _ => none

/-- The source's `revs.shas[sha].push(ref)` with creation of a fresh
one-element array when the key is absent. -/
def shaAdd (m : List (List Char × List (List Char))) (sha name : List Char) :
    List (List Char × List (List Char)) :=
  match objGet m sha with
  | some l => objSet m sha (l ++ [name])
  | none => objSet m sha [name]

/-- Updates performed by the reduce body once a doc has been built: store it
in refs, record its name under its sha, and, for tag-typed entries whose name
matches the version regex, store it in versions under the capture. -/
def applyEntry (d : RevsDoc) (doc : RemoteRef) : RevsDoc :=
  { versions :=
      if doc.type = RefType.tag then
        match findVer doc.ref with
        | some c => objSet d.versions c doc
        | none => d.versions
      else d.versions
    distTags := d.distTags
    refs := objSet d.refs doc.ref doc
    shas := shaAdd d.shas doc.sha doc.ref }

/-- One step of the source's reduce over listing lines. -/
def processLine (d : RevsDoc) (line : List Char) : RevsDoc :=
  match lineEntry line with
  | none => d
  | some doc => applyEntry d doc

/-- JS property access `v.sha` where `v` is a string primitive: strings have
no `sha` property, so the read yields undefined, modelled as `none`. -/
def stringSha (_v : List Char) : Option (List Char) := none

/-- JS strict equality on possibly-undefined string values. -/
def jsStrictEqOpt (a b : Option (List Char)) : Bool :=
  match a, b with
  | none, none => true
  | some x, some y => decide (x = y)
  | _, _ => false

/-- The post-parse dist-tags block of `revs`: when a HEAD ref exists, iterate
over the version keys and compare each key string's `sha` property (which is
undefined, the keys being strings) with HEAD's sha, populating dist-tags on a
match. -/
def headBlock (d : RevsDoc) : RevsDoc :=
  match objGet d.refs ("HEAD".data) with
  | none => d
  | some hd =>
    (d.versions.map Prod.fst).foldl
      (fun acc v =>
        if jsStrictEqOpt (stringSha v) (some hd.sha) then
          let acc1 :=
            { acc with distTags := objSet acc.distTags ("HEAD".data) (DistVal.ofKey v) }
          match objGet acc1.refs ("latest".data) with
          | some _ => acc1
          | none =>
            { acc1 with
              distTags := objSet acc1.distTags ("latest".data) (DistVal.ofRef hd) }
        else acc)
      d

/-- Parse of a whole listing given as individual lines. -/
def revsFromLines (lines : List (List Char)) : RevsDoc :=
  headBlock (lines.foldl processLine emptyDoc)

/-- Parse of the captured stdout of the listing process. -/
def revsFromStdout (stdout : List Char) : RevsDoc :=
  revsFromLines (splitNl stdout)

/-- The source's `GOOD_ENV_VARS` allow-list. -/
def goodEnvVars : List (List Char) :=
  ["GIT_ASKPASS".data, "GIT_EXEC_PATH".data, "GIT_PROXY_COMMAND".data,
   "GIT_SSH".data, "GIT_SSH_COMMAND".data, "GIT_SSL_CAINFO".data,
   "GIT_SSL_NO_VERIFY".data]

/-- Condition under which `gitEnv` forwards an ambient variable: it is on the
allow-list or does not start with the tool's private prefix. -/
def allowedKey (k : List Char) : Bool :=
  goodEnvVars.contains k || !("GIT_".data.isPrefixOf k)

/-- Model of the source's `gitEnv()`: start from the two overrides (credential
prompt set to echo, template directory set to the per-process unique path),
then copy every allowed ambient variable over it in iteration order.  The
ambient process environment and the unique temporary path are parameters. -/
def gitEnv (tmpName : List Char) (env : List (List Char × List Char)) :
    List (List Char × List Char) :=
  env.foldl
    (fun acc kv => if allowedKey kv.1 then objSet acc kv.1 kv.2 else acc)
    [("GIT_ASKPASS".data, "echo".data), ("GIT_TEMPLATE_DIR".data, tmpName)]

/-- Last value bound to a key in an association list, matching the final
effect of iterating JS object entries in order. -/
def lastVal (ps : List (List Char × List Char)) (k : List Char) :
    Option (List Char) :=
  match ps with
  | [] => none
  | kv :: t =>
    match lastVal t k with
    | some v => some v
    | none => if kv.1 = k then some kv.2 else none

/-- Modelled from the spec: the value of a `uid`/`gid` option field as seen by
`mkOpts` (the opt-check module is not part of the sources).  The spec only
says the fields are numeric or absent/invalid; the model carries the JS
ToNumber image: absent (undefined), not-a-number, or an integer. -/
inductive JsNumVal where
  | undef
  | nan
  | int (n : Int)
deriving DecidableEq

/-- JS ToNumber coercion (the unary plus in `+opts.uid`): undefined coerces to
NaN, numbers are unchanged. -/
def toNum : JsNumVal → JsNumVal
  | JsNumVal.undef => JsNumVal.nan
  | x => x

/-- The source's guard `if (+opts.uid && !isNaN(opts.uid))`: the coerced value
must be truthy (nonzero and not NaN); on success the spawn option is that
number. -/
def uidOpt (u : JsNumVal) : Option Int :=
  match toNum u with
  | JsNumVal.int n => if n = 0 then none else some n
  | _ => none

/-- Modelled from the spec: the normalized options object produced by the
Option Normalizer (opt-check), restricted to the fields `mkOpts` reads. -/
structure Opts where
  uid : JsNumVal
  gid : JsNumVal
deriving DecidableEq

/-- Modelled from the spec: the Option Normalizer returns a well-formed
options object, defaulting absent fields; called with no argument it yields
an object whose uid/gid are absent. -/
def optCheck (o : Option Opts) : Opts :=
  match o with
  | some x => x
  | none => ⟨JsNumVal.undef, JsNumVal.undef⟩

/-- The node `child_process` options object assembled by `mkOpts`. -/
structure GitOpts where
  env : Option (List (List Char × List Char))
  cwd : Option (List Char)
  uid : Option Int
  gid : Option Int
deriving DecidableEq

/-- Model of `Object.assign(gitOpts, _gitOpts)`: every property present on
the per-call object overrides the computed one. -/
def jsAssign (base over : GitOpts) : GitOpts :=
  { env := match over.env with | some e => some e | none => base.env
    cwd := match over.cwd with | some c => some c | none => base.cwd
    uid := match over.uid with | some u => some u | none => base.uid
    gid := match over.gid with | some g => some g | none => base.gid }

/-- Model of the source's `mkOpts(_gitOpts, opts)`.  The memoized git
environment is a parameter. -/
def mkOpts (gitenv : List (List Char × List Char)) (g0 : GitOpts)
    (opts : Opts) : GitOpts :=
  jsAssign
    { env := some gitenv, cwd := none,
      uid := uidOpt opts.uid, gid := uidOpt opts.gid }
    g0

/-- One spawned git invocation: argument vector and spawn options. -/
structure Invocation where
  args : List (List Char)
  opts : GitOpts
deriving DecidableEq

/-- Model of the source's `fullClone`: the ordered list of git invocations it
issues (clone, checkout, submodule update, HEAD read).  `dirname` stands for
node's `path.dirname`; `win` for `process.platform === 'win32'`.  Note the
checkout step calls `execGit` without the caller's options object, so its
normalized options are `optCheck none`. -/
def fullClone (gitenv : List (List Char × List Char))
    (dirname : List Char → List Char) (win : Bool)
    (repo committish target : List Char) (opts0 : Option Opts) :
    List Invocation :=
  let opts := optCheck opts0
  let cloneArgs :=
    ["clone".data, "-q".data, repo, target] ++
      (if win then ["--config".data, "core.longpaths=true".data] else [])
  [ ⟨cloneArgs, mkOpts gitenv ⟨none, some (dirname target), none, none⟩ opts⟩,
    ⟨["checkout".data, committish],
      mkOpts gitenv ⟨none, some target, none, none⟩ (optCheck none)⟩,
    ⟨["submodule".data, "update".data, "-q".data, "--init".data,
        "--recursive".data],
      mkOpts gitenv ⟨none, some target, none, none⟩ opts⟩,
    ⟨["rev-parse".data, "--revs-only".data, "HEAD".data],
      mkOpts gitenv ⟨none, some target, none, none⟩ opts⟩ ]

/-- Capacity of the `REVS` cache. -/
def revsMax : Nat := 100

/-- Entry lifetime of the `REVS` cache in milliseconds. -/
def revsMaxAge : Nat := 5 * 60 * 1000

/-- One entry of the `REVS` cache with its insertion time. -/
structure CacheEntry where
  key : List Char
  value : RevsDoc
  time : Nat
deriving DecidableEq

/-- Modelled from the spec: lookup in the bounded cache (the lru-cache
dependency, capacity 100, lifetime 5 minutes).  The list is kept in recency
order; a fresh hit is moved to the front, a stale entry is dropped. -/
def lruGet (c : List CacheEntry) (k : List Char) (now : Nat) :
    Option RevsDoc × List CacheEntry :=
  match c.find? (fun e => decide (e.key = k)) with
  | none => (none, c)
  | some e =>
    if now - e.time > revsMaxAge then
      (none, c.filter (fun e2 => !decide (e2.key = k)))
    else
      (some e.value, e :: c.filter (fun e2 => !decide (e2.key = k)))

/-- Modelled from the spec: insertion into the bounded cache; the least
recently used entries beyond the capacity are evicted. -/
def lruSet (c : List CacheEntry) (k : List Char) (v : RevsDoc) (now : Nat) :
    List CacheEntry :=
  (⟨k, v, now⟩ :: c.filter (fun e => !decide (e.key = k))).take revsMax

/-- Model of one call to the source's `revs(repo)` at time `now`: check the
cache first and return the cached document without spawning; on a miss spawn
the listing process (third component true), and on success parse stdout and
store the result.  The outcome of the spawned process is the `fetch`
parameter. -/
def revsCall (c : List CacheEntry) (repo : List Char) (now : Nat)
    (fetch : Except (List Char) (List Char)) :
    Except (List Char) RevsDoc × List CacheEntry × Bool :=
  let g := lruGet c repo now
  match g.1 with
  | some v => (Except.ok v, g.2, false)
  | none =>
    match fetch with
    | Except.error e => (Except.error e, g.2, true)
    | Except.ok stdout =>
      let doc := revsFromStdout stdout
      (Except.ok doc, lruSet g.2 repo doc now, true)

/-- Listing with HEAD at sha abc and tag v2.0.0 at the same sha. -/
def c1Input : List Char := "abc\tHEAD\nabc\trefs/tags/v2.0.0".data

/-- Listing with a tag whose name merely ends in a version triple. -/
def c5Input : List Char := "aaa\trefs/tags/release-1.2.3".data

/-- Listing in which the bare name v1.2.3 occurs as a tag and then as a
branch. -/
def c2Input : List Char :=
  "aaa\trefs/tags/v1.2.3\nbbb\trefs/heads/v1.2.3".data

/-- Bare name produced by a line, when the line produces an entry. -/
def lineName (line : List Char) : Option (List Char) :=
  (lineEntry line).map RemoteRef.ref

/-- The index the spec says `shas` must equal: fold over the refs entries in
order, recording each entry's name under its commit identifier. -/
def derivedShas (refs : List (List Char × RemoteRef)) :
    List (List Char × List (List Char)) :=
  refs.foldl (fun m e => shaAdd m e.2.sha e.1) []

/-- The claimed invariant: every reference stored in versions and dist-tags
is also a value of refs, and shas is exactly the index derived from refs. -/
def revsInv (d : RevsDoc) : Prop :=
  (∀ p ∈ d.versions, ∃ q ∈ d.refs, q.2 = p.2) ∧
  (∀ p ∈ d.distTags, ∃ q ∈ d.refs, DistVal.ofRef q.2 = p.2) ∧
  d.shas = derivedShas d.refs

instance revsInvDecidable (d : RevsDoc) : Decidable (revsInv d) := by
  unfold revsInv
  infer_instance

/-! Basic lemmas about the JS object model. -/

theorem objGet_objSet_self {α : Type} (m : List (List Char × α)) (k : List Char)
    (v : α) : objGet (objSet m k v) k = some v := by
  induction m with
  | nil => simp [objSet, objGet]
  | cons p t ih =>
    obtain ⟨k', v'⟩ := p
    by_cases h : k' = k
    · simp [objSet, objGet, h]
    · simp [objSet, objGet, h, ih]

theorem objGet_objSet_ne {α : Type} (m : List (List Char × α))
    (k k' : List Char) (v : α) (h : k' ≠ k) :
    objGet (objSet m k' v) k = objGet m k := by
  induction m with
  | nil => simp [objSet, objGet, h]
  | cons p t ih =>
    obtain ⟨k0, v0⟩ := p
    by_cases h0 : k0 = k'
    · subst h0; simp [objSet, objGet, h]
    · simp only [objSet, if_neg h0]
      by_cases h1 : k0 = k
      · simp [objGet, h1]
      · simp [objGet, h1, ih]

theorem objSet_fresh {α : Type} (m : List (List Char × α)) (k : List Char)
    (v : α) (h : k ∉ m.map Prod.fst) : objSet m k v = m ++ [(k, v)] := by
  induction m with
  | nil => simp [objSet]
  | cons p t ih =>
    obtain ⟨k0, v0⟩ := p
    simp only [List.map_cons, List.mem_cons] at h
    push_neg at h
    simp [objSet, Ne.symm h.1, ih h.2]

theorem mem_objSet {α : Type} (m : List (List Char × α)) (k : List Char)
    (v : α) (p : List Char × α) (h : p ∈ objSet m k v) :
    p ∈ m ∨ p = (k, v) := by
  induction m with
  | nil => simp [objSet] at h; right; exact h
  | cons q t ih =>
    obtain ⟨k0, v0⟩ := q
    by_cases h0 : k0 = k
    · rw [objSet, if_pos h0] at h
      rcases List.mem_cons.mp h with h1 | h1
      · right; exact h1
      · left; exact List.mem_cons_of_mem _ h1
    · rw [objSet, if_neg h0] at h
      rcases List.mem_cons.mp h with h1 | h1
      · left; exact h1 ▸ List.mem_cons_self _ _
      · rcases ih h1 with h2 | h2
        · left; exact List.mem_cons_of_mem _ h2
        · right; exact h2

/-! Lemmas about the whitespace split: its outputs contain no whitespace
characters, hence trimming them is the identity. -/

theorem splitOnWs1_ne_nil (l : List Char) : splitOnWs1 l ≠ [] := by
  induction l with
  | nil => simp [splitOnWs1]
  | cons c t ih =>
    simp only [splitOnWs1]
    split
    · simp
    · split
      · simp
      · simp

theorem splitOnWs1_ws_free (l : List Char) :
    ∀ x ∈ splitOnWs1 l, ∀ c ∈ x, isWs c = false := by
  induction l with
  | nil =>
    intro x hx c hc
    simp [splitOnWs1] at hx
    subst hx; simp at hc
  | cons a t ih =>
    intro x hx c hc
    simp only [splitOnWs1] at hx
    by_cases hw : isWs a = true
    · rw [if_pos hw] at hx
      rcases List.mem_cons.mp hx with h | h
      · subst h; simp at hc
      · exact ih x h c hc
    · rw [if_neg hw] at hx
      cases hsp : splitOnWs1 t with
      | nil => exact absurd hsp (splitOnWs1_ne_nil t)
      | cons s r =>
        rw [hsp] at hx
        rcases List.mem_cons.mp hx with h | h
        · subst h
          rcases List.mem_cons.mp hc with h2 | h2
          · subst h2; exact Bool.not_eq_true _ ▸ eq_false_of_ne_true hw
          · exact ih s (hsp ▸ List.mem_cons_self s r) c h2
        · exact ih x (hsp ▸ List.mem_cons_of_mem s h) c hc

theorem dropInnerNilAux_subset (xs : List (List Char)) (x : List Char)
    (h : x ∈ dropInnerNilAux xs) : x ∈ xs := by
  induction xs with
  | nil => simp [dropInnerNilAux] at h
  | cons x0 rest ih =>
    cases rest with
    | nil => simpa [dropInnerNilAux] using h
    | cons y t =>
      simp only [dropInnerNilAux] at h
      by_cases h0 : x0 = []
      · rw [if_pos h0] at h
        exact List.mem_cons_of_mem _ (ih h)
      · rw [if_neg h0] at h
        rcases List.mem_cons.mp h with h1 | h1
        · subst h1; exact List.mem_cons_self _ _
        · exact List.mem_cons_of_mem _ (ih h1)

theorem jsSplitWs2_ws_free (l : List Char) (x : List Char)
    (h : x ∈ jsSplitWs2 l) : ∀ c ∈ x, isWs c = false := by
  have h1 : x ∈ jsSplitWs l := List.take_subset 2 _ h
  have h2 : x ∈ splitOnWs1 l := by
    unfold jsSplitWs at h1
    cases hsp : splitOnWs1 l with
    | nil => rw [hsp] at h1; simp at h1
    | cons s r =>
      rw [hsp] at h1
      rcases List.mem_cons.mp h1 with h3 | h3
      · exact h3 ▸ List.mem_cons_self _ _
      · exact List.mem_cons_of_mem _ (dropInnerNilAux_subset r x h3)
  exact splitOnWs1_ws_free l x h2

theorem jsTrim_ws_free (x : List Char) (h : ∀ c ∈ x, isWs c = false) :
    jsTrim x = x := by
  have h1 : x.dropWhile isWs = x := by
    cases x with
    | nil => rfl
    | cons a t => simp [List.dropWhile_cons, h a (List.mem_cons_self a t)]
  have h2 : x.reverse.dropWhile isWs = x.reverse := by
    cases hx : x.reverse with
    | nil => rfl
    | cons a t =>
      have ha : a ∈ x := by
        rw [← List.mem_reverse, hx]; exact List.mem_cons_self a t
      rw [List.dropWhile_cons, h a ha]
      simp
  unfold jsTrim
  rw [h1, h2, List.reverse_reverse]

/-! The dist-tags block is dead code: the compared property read yields
undefined, so the fold never changes the accumulator. -/

theorem foldl_id {α β : Type} (f : α → β → α) (hf : ∀ a b, f a b = a)
    (l : List β) (init : α) : l.foldl f init = init := by
  induction l generalizing init with
  | nil => rfl
  | cons b t ih => rw [List.foldl_cons, hf, ih]

theorem headBlock_eq (d : RevsDoc) : headBlock d = d := by
  unfold headBlock
  cases h : objGet d.refs ("HEAD".data) with
  | none => rfl
  | some hd => exact foldl_id _ (fun a b => rfl) _ _

/-! Claim C1: the dist-tags derivation. -/

/-- C1: the claim says that for this listing the result has a dist-tags HEAD
entry (and a latest entry) resolving to sha abc.  The code never populates
dist-tags: it compares the undefined `sha` property of each version key
string with HEAD's sha.  This theorem evaluates the embedded code at the
failing input: HEAD is in refs at abc, version 2.0.0 is at abc, yet dist-tags
is empty. -/
theorem c1_bug :
    objGet (revsFromStdout c1Input).refs ("HEAD".data) =
        some ⟨"abc".data, "HEAD".data, RefType.head⟩ ∧
    objGet (revsFromStdout c1Input).versions ("2.0.0".data) =
        some ⟨"abc".data, "v2.0.0".data, RefType.tag⟩ ∧
    (revsFromStdout c1Input).distTags = [] := by decide

/-! Claim C8: malformed lines are skipped without failing the parse. -/

/-- C8: a line that splits into fewer than two whitespace-separated fields
contributes nothing, and the listing parses as if the line were absent (the
parse itself is a total function, so it cannot fail). -/
theorem c8_malformed (ls1 ls2 : List (List Char)) (bad : List Char)
    (h : (jsSplitWs2 bad).length < 2) :
    revsFromLines (ls1 ++ bad :: ls2) = revsFromLines (ls1 ++ ls2) := by
  have hent : lineEntry bad = none := by
    unfold lineEntry
    cases hsp : jsSplitWs2 bad with
    | nil => rfl
    | cons s r =>
      cases r with
      | nil => rfl
      | cons r2 t =>
        rw [hsp] at h
        simp [List.length_cons] at h
        omega
  have hpl : ∀ d, processLine d bad = d := by
    intro d; unfold processLine; rw [hent]
  unfold revsFromLines
  rw [List.foldl_append, List.foldl_append, List.foldl_cons, hpl]

/-- Witness for C8 at a concrete malformed line. -/
theorem c8_witness :
    (jsSplitWs2 ("junk".data)).length < 2 ∧
    revsFromLines (["aaa\tHEAD".data] ++ "junk".data :: []) =
      revsFromLines (["aaa\tHEAD".data] ++ []) :=
  ⟨by decide, c8_malformed ["aaa\tHEAD".data] [] ("junk".data) (by decide)⟩

/-! Claim C10: the checkout step of the full clone ignores caller options. -/

/-- C10: in the full-clone workflow the clone, submodule-update and HEAD-read
invocations carry the uid/gid derived from the caller's options, while the
checkout invocation is built from a fresh default options object, so it never
carries caller-supplied uid/gid. -/
theorem c10_checkout_opts (gitenv : List (List Char × List Char))
    (dirname : List Char → List Char) (win : Bool)
    (repo committish target : List Char) (opts0 : Option Opts) :
    (fullClone gitenv dirname win repo committish target opts0).map
        (fun i => (i.opts.uid, i.opts.gid)) =
      [ (uidOpt (optCheck opts0).uid, uidOpt (optCheck opts0).gid),
        (none, none),
        (uidOpt (optCheck opts0).uid, uidOpt (optCheck opts0).gid),
        (uidOpt (optCheck opts0).uid, uidOpt (optCheck opts0).gid) ] := rfl

/-! Claim C6: the credential-prompt override. -/

/-- Final lookup after folding allowed ambient entries over an accumulator:
the last allowed binding of the key wins, otherwise the accumulator's binding
shows through. -/
theorem foldEnv_get (ps : List (List Char × List Char))
    (acc : List (List Char × List Char)) (k : List Char)
    (hk : allowedKey k = true) :
    objGet
        (ps.foldl
          (fun acc kv => if allowedKey kv.1 then objSet acc kv.1 kv.2 else acc)
          acc) k =
      match lastVal ps k with
      | some v => some v
      | none => objGet acc k := by
  induction ps generalizing acc with
  | nil => rfl
  | cons kv t ih =>
    rw [List.foldl_cons, ih]
    cases hl : lastVal t k with
    | some v => simp [lastVal, hl]
    | none =>
      simp only [lastVal, hl]
      by_cases hke : kv.1 = k
      · have hak : allowedKey kv.1 = true := by rw [hke]; exact hk
        rw [hke] at hak ⊢
        simp [hak, objGet_objSet_self]
      · have hsame :
            objGet (if allowedKey kv.1 then objSet acc kv.1 kv.2 else acc) k =
              objGet acc k := by
          split
          · exact objGet_objSet_ne acc k kv.1 kv.2 hke
          · rfl
        rw [hsame]
        simp [hke]

/-- Counterexample to C6: with an ambient environment defining GIT_ASKPASS
(an allow-listed name), the built environment forwards the ambient value, not
the no-op `echo`: the claim that GIT_ASKPASS is always `echo` is false. -/
theorem c6_cx :
    objGet (gitEnv ("tmpX".data) [("GIT_ASKPASS".data, "ssh-askpass".data)])
        ("GIT_ASKPASS".data) = some ("ssh-askpass".data) ∧
    ("ssh-askpass".data : List Char) ≠ "echo".data := by decide

/-- C6 amended: the environment built for spawned git invocations maps
GIT_ASKPASS to the no-op `echo` only when the ambient environment does not
define GIT_ASKPASS; being allow-listed, an ambient GIT_ASKPASS value (its
last binding) is forwarded and overrides the default. -/
theorem c6_amended (tmpName : List Char) (env : List (List Char × List Char)) :
    objGet (gitEnv tmpName env) ("GIT_ASKPASS".data) =
      some ((lastVal env ("GIT_ASKPASS".data)).getD ("echo".data)) := by
  unfold gitEnv
  rw [foldEnv_get _ _ _ (by decide)]
  cases hl : lastVal env ("GIT_ASKPASS".data) with
  | some v => simp
  | none => simp [objGet]

/-! Claim C9: uid/gid propagation into spawn options. -/

/-- Characterization of the uid/gid guard: the spawn option is set to `n`
exactly when the coerced field is the number `n` and `n` is nonzero (JS
truthiness drops 0 and NaN). -/
theorem uidOpt_eq_some (u : JsNumVal) (n : Int) :
    uidOpt u = some n ↔ toNum u = JsNumVal.int n ∧ n ≠ 0 := by
  cases u with
  | undef => simp [uidOpt, toNum]
  | nan => simp [uidOpt, toNum]
  | int m =>
    simp only [uidOpt, toNum]
    by_cases h : m = 0
    · subst h
      simp only [if_pos rfl]
      constructor
      · intro h'; exact absurd h' (by simp)
      · rintro ⟨h1, h2⟩
        exact absurd (by injection h1 with h1; exact h1.symm) h2
    · rw [if_neg h]
      constructor
      · intro h'
        have : m = n := by injection h'
        exact ⟨by rw [this], by rw [← this]; exact h⟩
      · rintro ⟨h1, h2⟩
        have : m = n := by injection h1
        rw [this]

/-- Counterexample to C9: a supplied uid of 0 is numeric, yet the spawn
options carry no uid (JS truthiness of `+opts.uid` rejects 0), contradicting
the claimed "exactly when numeric, with that value". -/
theorem c9_cx :
    (mkOpts [] ⟨none, none, none, none⟩
        ⟨JsNumVal.int 0, JsNumVal.undef⟩).uid = none ∧
    (mkOpts [] ⟨none, none, none, none⟩
        ⟨JsNumVal.int 0, JsNumVal.undef⟩).uid ≠ some 0 := by decide

/-- C9 amended: when the per-call git options do not themselves carry uid/gid
(as at every call site), the spawn options carry uid (resp. gid) `n` exactly
when the supplied field coerces to the number `n` and `n` is nonzero; absent,
non-numeric and zero values leave the option unset. -/
theorem c9_amended (gitenv : List (List Char × List Char)) (g0 : GitOpts)
    (opts : Opts) (h1 : g0.uid = none) (h2 : g0.gid = none) :
    (∀ n : Int, (mkOpts gitenv g0 opts).uid = some n ↔
        toNum opts.uid = JsNumVal.int n ∧ n ≠ 0) ∧
    (∀ n : Int, (mkOpts gitenv g0 opts).gid = some n ↔
        toNum opts.gid = JsNumVal.int n ∧ n ≠ 0) := by
  have hu : (mkOpts gitenv g0 opts).uid = uidOpt opts.uid := by
    simp [mkOpts, jsAssign, h1]
  have hg : (mkOpts gitenv g0 opts).gid = uidOpt opts.gid := by
    simp [mkOpts, jsAssign, h2]
  exact ⟨fun n => hu ▸ uidOpt_eq_some _ n, fun n => hg ▸ uidOpt_eq_some _ n⟩

/-- Witness for C9 at a concrete input: uid 500 is carried, gid 0 exists but
the hypothesis side shows 500 is carried through the amended description. -/
theorem c9_witness :
    (mkOpts [] ⟨none, none, none, none⟩
        ⟨JsNumVal.int 500, JsNumVal.int 0⟩).uid = some 500 :=
  ((c9_amended [] ⟨none, none, none, none⟩ ⟨JsNumVal.int 500, JsNumVal.int 0⟩
      rfl rfl).1 500).mpr ⟨rfl, by decide⟩

/-! Claim C4: cache hit on a repeated query. -/

/-- A key set at time `t0` is found fresh at any `t1` within the lifetime. -/
theorem lruGet_after_set_fst (c : List CacheEntry) (k : List Char)
    (v : RevsDoc) (t0 t1 : Nat) (hage : t1 - t0 ≤ revsMaxAge) :
    (lruGet (lruSet c k v t0) k t1).1 = some v := by
  unfold lruSet lruGet
  rw [show revsMax = 99 + 1 from rfl, List.take_succ_cons]
  rw [List.find?_cons_of_pos _ (by simp)]
  simp only
  rw [if_neg (by omega)]

/-- C4: a call to `revs` whose cache lookup misses spawns the listing process
and caches the parsed result; a second call for the same repository while the
entry is live (within the 5-minute lifetime, capacity not exceeded in
between) returns the identical cached ResolutionResult and spawns nothing,
whatever the outcome of a listing process would have been. -/
theorem c4_cached (c0 : List CacheEntry) (repo stdout : List Char)
    (t0 t1 : Nat) (fetch2 : Except (List Char) (List Char))
    (hmiss : (lruGet c0 repo t0).1 = none)
    (hage : t1 - t0 ≤ revsMaxAge) :
    (revsCall c0 repo t0 (Except.ok stdout)).2.2 = true ∧
    (revsCall (revsCall c0 repo t0 (Except.ok stdout)).2.1 repo t1 fetch2).1 =
      Except.ok (revsFromStdout stdout) ∧
    (revsCall (revsCall c0 repo t0 (Except.ok stdout)).2.1 repo t1
        fetch2).2.2 = false := by
  have h1 : revsCall c0 repo t0 (Except.ok stdout) =
      (Except.ok (revsFromStdout stdout),
        lruSet (lruGet c0 repo t0).2 repo (revsFromStdout stdout) t0,
        true) := by
    simp only [revsCall, hmiss]
  have h2 : (lruGet (lruSet (lruGet c0 repo t0).2 repo
      (revsFromStdout stdout) t0) repo t1).1 = some (revsFromStdout stdout) :=
    lruGet_after_set_fst _ _ _ _ _ hage
  refine ⟨by rw [h1], ?_, ?_⟩ <;> rw [h1] <;> simp only [revsCall, h2]

/-- Witness for C4 at a concrete repository, listing and times. -/
theorem c4_witness :
    (lruGet [] ("repo".data) 0).1 = none ∧
    (revsCall (revsCall [] ("repo".data) 0
          (Except.ok ("abc\tHEAD".data))).2.1 ("repo".data) 60000
        (Except.error [])).1 =
      Except.ok (revsFromStdout ("abc\tHEAD".data)) :=
  ⟨rfl,
    (c4_cached [] ("repo".data) ("abc\tHEAD".data) 0 60000 (Except.error [])
        rfl (by decide)).2.1⟩

/-! Claim C7: dereference markers and empty bare names produce nothing. -/

/-- The first element surviving a dropWhile fails the predicate. -/
theorem dropWhile_head_false {p : Char → Bool} (l : List Char) (a : Char)
    (t : List Char) (h : l.dropWhile p = a :: t) : p a = false := by
  induction l with
  | nil => simp [List.dropWhile] at h
  | cons b l2 ih =>
    rw [List.dropWhile_cons] at h
    by_cases hb : p b = true
    · rw [if_pos hb] at h; exact ih h
    · rw [if_neg hb] at h
      injection h with h1 _
      subst h1
      exact eq_false_of_ne_true hb

/-- Namespace stripping preserves a trailing dereference marker: the marker
contains no slash, so it cannot be cut by the stripped `refs/<ns>/` prefix. -/
theorem caret_strip (x : List Char) (h : caretBraces <:+ x) :
    caretBraces <:+ stripNs x := by
  unfold stripNs
  split
  · dsimp only
    split
    · exact h
    · split
      · next c tail heq =>
        have hc : c = '/' := by
          have := dropWhile_head_false _ _ _ heq
          simpa using this
        have hsuf : (c :: tail) <:+ x := by
          rw [← heq]
          exact (List.dropWhile_suffix _).trans (List.drop_suffix 5 x)
        rcases List.suffix_or_suffix_of_suffix h hsuf with hcase | hcase
        · rcases List.suffix_cons_iff.mp hcase with h1 | h1
          · exfalso
            rw [hc] at h1
            injection h1 with h1a _
            exact absurd h1a (by decide)
          · exact h1
        · exfalso
          have hmem : c ∈ caretBraces :=
            hcase.sublist.subset (List.mem_cons_self c tail)
          rw [hc] at hmem
          revert hmem
          decide
      · exact h
  · exact h

/-- C7: a well-formed line whose reference path ends with the dereference
marker, or whose bare name after namespace stripping is empty, contributes no
entry: the accumulated document is unchanged (so nothing is added to refs,
shas or versions). -/
theorem c7_skip (line s r : List Char) (d : RevsDoc)
    (hsplit : jsSplitWs2 line = [s, r])
    (h : caretBraces <:+ r ∨ stripNs r = []) :
    processLine d line = d := by
  have hrtrim : jsTrim r = r :=
    jsTrim_ws_free r (jsSplitWs2_ws_free line r (by rw [hsplit]; simp))
  have hent : lineEntry line = none := by
    unfold lineEntry
    rw [hsplit]
    simp only [hrtrim]
    rcases h with hcar | hemp
    · by_cases he : stripNs r = []
      · rw [if_pos he]
      · rw [if_neg he, if_pos (caret_strip r hcar)]
    · rw [if_pos hemp]
  unfold processLine
  rw [hent]

/-- Witness for C7 on a concrete peeled-tag line and a concrete
empty-bare-name line (the marker hypothesis is discharged on the first). -/
theorem c7_witness :
    jsSplitWs2 ("abc\trefs/tags/v1.0.0".data ++ caretBraces) =
      ["abc".data, "refs/tags/v1.0.0".data ++ caretBraces] ∧
    processLine emptyDoc ("abc\trefs/tags/v1.0.0".data ++ caretBraces) =
      emptyDoc :=
  ⟨by decide,
    c7_skip _ ("abc".data) ("refs/tags/v1.0.0".data ++ caretBraces) emptyDoc
      (by decide) (Or.inl (by decide))⟩

/-! Claim C5: which tag names populate `versions`, and under which key. -/

/-- A string headed by a non-digit that is not a dot never matches the
three-component version pattern. -/
theorem isMMP_head (a : Char) (t : List Char) (ha : a.isDigit = false)
    (hdot : ¬ a = '.') : isMMP (a :: t) = false := by
  unfold isMMP
  rw [List.dropWhile_cons, if_neg (by simp [ha])]
  dsimp only
  rw [if_neg hdot]

/-- The letter v is neither a digit nor a dot, so a v-headed string is not a
bare version triple. -/
theorem isMMP_v (t : List Char) : isMMP ('v' :: t) = false :=
  isMMP_head 'v' t (by decide) (by decide)

/-- Shape of a successful single-position match. -/
theorem verAt_some (l c : List Char) (h : verAt l = some c) :
    (c = l ∧ isMMP l = true) ∨
      (∃ t, l = 'v' :: t ∧ c = t ∧ isMMP t = true) := by
  cases l with
  | nil => simp [verAt] at h
  | cons a t =>
    simp only [verAt] at h
    by_cases h1 : a = 'v' ∧ isMMP t = true
    · rw [if_pos h1] at h
      injection h with h2
      exact Or.inr ⟨t, by rw [h1.1], h2.symm, h1.2⟩
    · rw [if_neg h1] at h
      by_cases h2 : isMMP (a :: t) = true
      · rw [if_pos h2] at h
        injection h with h3
        exact Or.inl ⟨h3.symm, h2⟩
      · rw [if_neg h2] at h
        exact absurd h (by simp)

/-- Shape of a failed single-position match. -/
theorem verAt_none (l : List Char) (h : verAt l = none) :
    isMMP l = false ∧ ∀ t, l = 'v' :: t → isMMP t = false := by
  cases l with
  | nil =>
    refine ⟨rfl, ?_⟩
    intro t ht
    exact absurd ht (by simp)
  | cons a t =>
    simp only [verAt] at h
    by_cases h1 : a = 'v' ∧ isMMP t = true
    · rw [if_pos h1] at h; cases h
    · rw [if_neg h1] at h
      by_cases h2 : isMMP (a :: t) = true
      · rw [if_pos h2] at h; cases h
      · refine ⟨eq_false_of_ne_true h2, ?_⟩
        intro t' ht'
        injection ht' with ha ht2
        subst ht2
        by_contra hc
        exact h1 ⟨ha, eq_true_of_ne_false hc⟩

/-- The leftmost-match search returns exactly the longest suffix of the
string that is a bare version triple. -/
theorem findVer_eq_some (n c : List Char) (hs : c <:+ n) (hm : isMMP c = true)
    (hmax : ∀ d, d <:+ n → isMMP d = true → d.length ≤ c.length) :
    findVer n = some c := by
  induction n with
  | nil =>
    rw [List.suffix_nil] at hs
    subst hs
    exact absurd hm (by decide)
  | cons a t ih =>
    cases hva : verAt (a :: t) with
    | some c0 =>
      have hred : findVer (a :: t) = some c0 := by simp [findVer, hva]
      rw [hred]
      rcases verAt_some _ _ hva with ⟨h1, h2⟩ | ⟨t', h1, h2, h3⟩
      · have hlen : (a :: t).length ≤ c.length := hmax _ List.suffix_rfl h2
        have hceq : c = a :: t :=
          hs.eq_of_length (Nat.le_antisymm hs.length_le hlen)
        rw [h1, hceq]
      · injection h1 with hav ht'
        subst ht'
        have hlen : t.length ≤ c.length := hmax t (List.suffix_cons a t) h3
        rcases List.suffix_cons_iff.mp hs with h4 | h4
        · exfalso
          rw [h4, hav] at hm
          exact absurd hm (by simp [isMMP_v])
        · have hceq : c = t :=
            h4.eq_of_length (Nat.le_antisymm h4.length_le hlen)
          rw [h2, hceq]
    | none =>
      have hred : findVer (a :: t) = findVer t := by simp [findVer, hva]
      rw [hred]
      obtain ⟨hm1, _⟩ := verAt_none _ hva
      rcases List.suffix_cons_iff.mp hs with h4 | h4
      · exfalso
        rw [h4] at hm
        exact absurd hm (by simp [hm1])
      · exact ih h4 (fun d hd hmd => hmax d (hd.trans (List.suffix_cons a t)) hmd)

/-- When no suffix is a bare version triple, the search fails. -/
theorem findVer_eq_none (n : List Char)
    (h : ∀ c, c <:+ n → isMMP c = true → False) : findVer n = none := by
  induction n with
  | nil => rfl
  | cons a t ih =>
    cases hva : verAt (a :: t) with
    | some c0 =>
      exfalso
      rcases verAt_some _ _ hva with ⟨_, h2⟩ | ⟨t', h1, _, h3⟩
      · exact h _ List.suffix_rfl h2
      · injection h1 with _ ht'
        subst ht'
        exact h t (List.suffix_cons a t) h3
    | none =>
      have hred : findVer (a :: t) = findVer t := by simp [findVer, hva]
      rw [hred]
      exact ih (fun c hc hm => h c (hc.trans (List.suffix_cons a t)) hm)

/-- Versions field of one applied tag entry, stated once for rewriting. -/
theorem applyEntry_versions_tag (d : RevsDoc) (sha ref : List Char) :
    (applyEntry d ⟨sha, ref, RefType.tag⟩).versions =
      match findVer ref with
      | some c => objSet d.versions c ⟨sha, ref, RefType.tag⟩
      | none => d.versions := rfl

/-- Counterexample to C5: the claim allows a versions entry only when the
whole bare tag name is an optional v followed by MAJOR.MINOR.PATCH, but the
end-anchored (not start-anchored) regex also matches `release-1.2.3`, which
populates `versions` under `1.2.3` even though the whole-name match
(`verAt`) rejects that name. -/
theorem c5_cx :
    objGet (revsFromStdout c5Input).versions ("1.2.3".data) =
      some ⟨"aaa".data, "release-1.2.3".data, RefType.tag⟩ ∧
    verAt ("release-1.2.3".data) = none := by decide

/-- C5 amended: for a well-formed tag line, a versions entry is added if and
only if some suffix of the bare name is a bare MAJOR.MINOR.PATCH triple; the
key is the longest such suffix (the capture of the end-anchored regex) and
the value is the owning reference. -/
theorem c5_amended (line s r : List Char) (d : RevsDoc)
    (hsplit : jsSplitWs2 line = [s, r])
    (htype : refType line = RefType.tag)
    (hne : stripNs r ≠ [])
    (hcaret : ¬ caretBraces <:+ stripNs r) :
    (∀ c, c <:+ stripNs r → isMMP c = true →
        (∀ c2 ∈ (stripNs r).tails, isMMP c2 = true → c2.length ≤ c.length) →
        objGet (processLine d line).versions c =
          some ⟨jsTrim s, stripNs r, RefType.tag⟩) ∧
    ((∀ c2 ∈ (stripNs r).tails, isMMP c2 = true → False) →
        (processLine d line).versions = d.versions) := by
  have hrtrim : jsTrim r = r :=
    jsTrim_ws_free r (jsSplitWs2_ws_free line r (by rw [hsplit]; simp))
  have hent : lineEntry line = some ⟨jsTrim s, stripNs r, RefType.tag⟩ := by
    unfold lineEntry
    rw [hsplit]
    simp only [hrtrim, htype]
    rw [if_neg hne, if_neg hcaret]
  have hpl : processLine d line = applyEntry d ⟨jsTrim s, stripNs r, RefType.tag⟩ := by
    unfold processLine
    rw [hent]
  constructor
  · intro c hcs hcm hcmax
    have hfv : findVer (stripNs r) = some c :=
      findVer_eq_some _ _ hcs hcm
        (fun d2 hd2 hmd2 => hcmax d2 ((List.mem_tails _ _).mpr hd2) hmd2)
    rw [hpl, applyEntry_versions_tag, hfv]
    exact objGet_objSet_self _ _ _
  · intro hnone
    have hfv : findVer (stripNs r) = none :=
      findVer_eq_none _ (fun c hc hm => hnone c ((List.mem_tails _ _).mpr hc) hm)
    rw [hpl, applyEntry_versions_tag, hfv]

/-- Witness for C5 at a concrete conforming tag line. -/
theorem c5_witness :
    objGet ((processLine emptyDoc ("aaa\trefs/tags/v1.2.3".data)).versions)
        ("1.2.3".data) =
      some ⟨"aaa".data, "v1.2.3".data, RefType.tag⟩ :=
  (c5_amended ("aaa\trefs/tags/v1.2.3".data) ("aaa".data)
      ("refs/tags/v1.2.3".data) emptyDoc (by decide) (by decide) (by decide)
      (by decide)).1
    ("1.2.3".data) (by decide) (by decide) (by decide)

/-! Claim C2: the refs/versions/shas invariant. -/

theorem lineName_none (line : List Char) (h : lineName line = none)
    (d : RevsDoc) : processLine d line = d := by
  unfold lineName at h
  unfold processLine
  cases he : lineEntry line with
  | none => rfl
  | some doc => rw [he] at h; simp at h

theorem lineName_some (line : List Char) (n : List Char)
    (h : lineName line = some n) :
    ∃ doc, lineEntry line = some doc ∧ doc.ref = n := by
  unfold lineName at h
  cases he : lineEntry line with
  | none => rw [he] at h; cases h
  | some doc =>
    rw [he] at h
    injection h with h1
    exact ⟨doc, rfl, h1⟩

theorem derivedShas_append (refs : List (List Char × RemoteRef))
    (k : List Char) (doc : RemoteRef) :
    derivedShas (refs ++ [(k, doc)]) = shaAdd (derivedShas refs) doc.sha k := by
  unfold derivedShas
  rw [List.foldl_append]
  rfl

/-- One freshly-named entry preserves the invariant and appends its name to
the refs keys. -/
theorem revsInv_applyEntry (d : RevsDoc) (doc : RemoteRef)
    (hinv : revsInv d) (hfresh : doc.ref ∉ d.refs.map Prod.fst) :
    revsInv (applyEntry d doc) ∧
    (applyEntry d doc).refs.map Prod.fst = d.refs.map Prod.fst ++ [doc.ref] := by
  obtain ⟨hv, hd, hs⟩ := hinv
  have hrefs : (applyEntry d doc).refs = d.refs ++ [(doc.ref, doc)] :=
    objSet_fresh _ _ _ hfresh
  have hvers : (applyEntry d doc).versions =
      if doc.type = RefType.tag then
        match findVer doc.ref with
        | some c => objSet d.versions c doc
        | none => d.versions
      else d.versions := rfl
  refine ⟨⟨?_, ?_, ?_⟩, ?_⟩
  · intro p hp
    have hcases : p ∈ d.versions ∨ p.2 = doc := by
      rw [hvers] at hp
      by_cases ht : doc.type = RefType.tag
      · rw [if_pos ht] at hp
        cases hf : findVer doc.ref with
        | some c =>
          rw [hf] at hp
          rcases mem_objSet _ _ _ _ hp with h1 | h1
          · exact Or.inl h1
          · right; rw [h1]
        | none => rw [hf] at hp; exact Or.inl hp
      · rw [if_neg ht] at hp; exact Or.inl hp
    rcases hcases with h1 | h1
    · obtain ⟨q, hq, hq2⟩ := hv p h1
      exact ⟨q, by rw [hrefs]; exact List.mem_append_left _ hq, hq2⟩
    · refine ⟨(doc.ref, doc), ?_, by rw [h1]⟩
      rw [hrefs]
      exact List.mem_append_right _ (by simp)
  · intro p hp
    have hp' : p ∈ d.distTags := hp
    obtain ⟨q, hq, hq2⟩ := hd p hp'
    exact ⟨q, by rw [hrefs]; exact List.mem_append_left _ hq, hq2⟩
  · show shaAdd d.shas doc.sha doc.ref = derivedShas (applyEntry d doc).refs
    rw [hrefs, derivedShas_append, hs]
  · rw [hrefs]; simp

/-- Folding lines whose produced names are fresh and pairwise distinct keeps
the invariant. -/
theorem revsInv_fold (lines : List (List Char)) (d : RevsDoc)
    (hinv : revsInv d)
    (hfresh : ∀ n ∈ lines.filterMap lineName, n ∉ d.refs.map Prod.fst)
    (hnd : (lines.filterMap lineName).Nodup) :
    revsInv (lines.foldl processLine d) := by
  induction lines generalizing d with
  | nil => exact hinv
  | cons line rest ih =>
    rw [List.foldl_cons]
    cases hn : lineName line with
    | none =>
      have heq : (line :: rest).filterMap lineName =
          rest.filterMap lineName := by
        simp [List.filterMap_cons, hn]
      rw [heq] at hfresh hnd
      rw [lineName_none line hn d]
      exact ih d hinv hfresh hnd
    | some n0 =>
      obtain ⟨doc, hent, hdref⟩ := lineName_some line n0 hn
      have hpl : processLine d line = applyEntry d doc := by
        unfold processLine
        rw [hent]
      have heq : (line :: rest).filterMap lineName =
          n0 :: rest.filterMap lineName := by
        simp [List.filterMap_cons, hn]
      rw [heq] at hfresh hnd
      have hfr : doc.ref ∉ d.refs.map Prod.fst := by
        rw [hdref]
        exact hfresh n0 (List.mem_cons_self _ _)
      obtain ⟨hinv2, hkeys⟩ := revsInv_applyEntry d doc hinv hfr
      rw [hpl]
      refine ih _ hinv2 ?_ (List.Nodup.of_cons hnd)
      intro n hnm
      rw [hkeys]
      simp only [List.mem_append, List.mem_singleton]
      push_neg
      refine ⟨hfresh n (List.mem_cons_of_mem _ hnm), ?_⟩
      intro hcon
      rw [hdref] at hcon
      exact (List.nodup_cons.mp hnd).1 (hcon ▸ hnm)

/-- Counterexample to C2: the claim asserts the invariant holds in particular
when a bare name repeats, but on this listing `versions` keeps the earlier
tag reference while `refs` holds only the later branch reference, and `shas`
keeps names for both commits, so it is not the index derived from refs. -/
theorem c2_cx : ¬ revsInv (revsFromStdout c2Input) := by decide

/-- C2 amended: when each produced bare reference name occurs on at most one
listing line, every reference in versions and dist-tags also appears as a
value of refs and shas is exactly the index derived from refs; with repeated
names last-seen wins in refs, but versions and shas can then retain stale
entries and the invariant may fail. -/
theorem c2_amended (lines : List (List Char))
    (hnd : (lines.filterMap lineName).Nodup) :
    revsInv (revsFromLines lines) := by
  unfold revsFromLines
  rw [headBlock_eq]
  refine revsInv_fold lines emptyDoc ⟨?_, ?_, rfl⟩ ?_ hnd
  · intro p hp; simp [emptyDoc] at hp
  · intro p hp; simp [emptyDoc] at hp
  · intro n _; simp [emptyDoc]

/-- Witness for C2 on a concrete two-line listing with distinct names. -/
theorem c2_witness :
    ((["aaa\trefs/tags/v1.0.0".data, "bbb\tHEAD".data] :
        List (List Char)).filterMap lineName).Nodup ∧
    revsInv (revsFromLines
      ["aaa\trefs/tags/v1.0.0".data, "bbb\tHEAD".data]) :=
  ⟨by decide, c2_amended _ (by decide)⟩
